import Mathlib

set_option maxHeartbeats 1000000

/-!
Shallow embedding of the DoNotDisturb++ notification core:
the pure router (`src/src/router.js`, `src/src/matchers.ts`) and the stateful
notification manager (`src/DD/src/notificationManager.ts`).

JavaScript strings are modeled as `List Char`; epoch-millisecond timestamps and
the injected clock value as `Int`.  The mutable `NotificationManager` class is
modeled by explicit state passing: every method becomes a function from the
manager state to a new manager state, returning in addition the invoked
count-changed callbacks as a list of `Emit` values (the source invokes the
registered callback synchronously at exactly these points).
-/

namespace DoNotDisturb

/-- Action from `types.ts`: "allow" | "suppress" | "digest". -/
inductive Action where
  | allow
  | suppress
  | digest
deriving DecidableEq

/-- NotificationInput from `types.ts`: source, title and body strings. -/
structure NotificationInput where
  source : List Char
  title : List Char
  body : List Char
deriving DecidableEq

/-- Rule from `types.ts`: source ("*" or exact), optional contains filter, action. -/
structure Rule where
  source : List Char
  contains : Option (List Char)
  action : Action
deriving DecidableEq

/-- RouterState: focusMode and optional snoozeUntil from `state.ts`, plus the
afkMode flag the DD manager stores on the same state object. -/
structure RouterState where
  focusMode : Bool
  afkMode : Bool
  snoozeUntil : Option Int
deriving DecidableEq

/-- JS `String.prototype.toLowerCase`, per character. -/
def toLower (s : List Char) : List Char := s.map Char.toLower

/-- JS `String.prototype.trim`: strip whitespace from both ends. -/
def trim (s : List Char) : List Char :=
  ((s.dropWhile Char.isWhitespace).reverse.dropWhile Char.isWhitespace).reverse

/-- JS `String.prototype.includes`: substring search, scanning every suffix
of the haystack for the needle as a prefix. -/
def includes (haystack needle : List Char) : Bool :=
  match haystack with
  | [] => needle.isEmpty
  | c :: rest => needle.isPrefixOf (c :: rest) || includes rest needle

/-- MatchCondition from `matchers.ts`: (rule, input) => Bool. -/
abbrev MatchCondition := Rule → NotificationInput → Bool

/-- sourceMatches from `matchers.ts`: rule.source === "*" or equals
input.source case-insensitively. -/
def sourceMatches : MatchCondition := fun rule input =>
  if rule.source = ['*'] then true
  else decide (toLower rule.source = toLower input.source)

/-- containsMatches from `matchers.ts`: needle = rule.contains?.trim(); if the
needle is absent or empty the condition passes; otherwise the lowercased
title + "\n" + body must include the lowercased needle. -/
def containsMatches : MatchCondition := fun rule input =>
  let needle := match rule.contains with
    | none => []
    | some c => trim c
  if needle = [] then true
  else includes (toLower (input.title ++ '\n' :: input.body)) (toLower needle)

/-- defaultMatchConditions from `matchers.ts`: source, then contains. -/
def defaultMatchConditions : List MatchCondition := [sourceMatches, containsMatches]

/-- The snooze guard of `route` (router.js line 29): snoozeUntil is present
(a number) and now < snoozeUntil. -/
def snoozeActive (snoozeUntil : Option Int) (now : Int) : Bool :=
  match snoozeUntil with
  | some s => decide (now < s)
  | none => false

/-- The `conditions.every((fn) => fn(rule, input))` check of router.js. -/
def rulePasses (conditions : List MatchCondition) (input : NotificationInput)
    (rule : Rule) : Bool :=
  conditions.all (fun fn => fn rule input)

/-- The first-match scan of router.js: first rule all of whose conditions pass
wins, returning its action. -/
def firstMatch (conditions : List MatchCondition) (input : NotificationInput) :
    List Rule → Option Action
  | [] => none
  | rule :: rest =>
      if rulePasses conditions input rule then some rule.action
      else firstMatch conditions input rest

/-- route from router.js.  The clock `opts.getNow` is injected as the value
`now`; the condition list `opts.matchConditions` is the `conditions` argument
(the source defaults it to `defaultMatchConditions`). -/
def route (input : NotificationInput) (state : RouterState) (rules : List Rule)
    (conditions : List MatchCondition) (now : Int) : Action :=
  if snoozeActive state.snoozeUntil now then Action.digest
  else
    match firstMatch conditions input rules with
    | some act => act
    | none => if state.focusMode then Action.digest else Action.allow

/-- JS regex word character: `\w` = [A-Za-z0-9_]. -/
def isWordChar (c : Char) : Bool := c.isAlphanum || c = '_'

/-- One position of the mention regex `@name\b` (notificationManager.ts,
containsMention): the text starts with '@' followed by the name, and at the
position after the name there is a word boundary, i.e. the text ends or the
next character is not a word character.  Both name and text are expected
already lowercased (the source uses the case-insensitive 'i' flag). -/
def mentionHere (name : List Char) (text : List Char) : Bool :=
  match text with
  | [] => false
  | c :: rest =>
      decide (c = '@') && name.isPrefixOf rest &&
      (match rest.drop name.length with
       | [] => true
       | d :: _ => ! isWordChar d)

/-- Search for the mention pattern at every position of the text, modeling
`RegExp.prototype.test`. -/
def hasMention (name : List Char) : List Char → Bool
  | [] => false
  | c :: rest => mentionHere name (c :: rest) || hasMention name rest

/-- containsMention from notificationManager.ts: false when no user name is
configured (`if (!this.userName) return false`); otherwise test the regex
`@${userName}\b` with the 'i' flag against `` `${title} ${body}` ``.
The regex is modeled as literal-token matching on lowercased text, which is the
compiled regex's semantics whenever the user name consists of word characters
(no regex metacharacters); the failing metacharacter case is modeled separately
by `containsMentionChecked`. -/
def containsMention (userName : List Char) (input : NotificationInput) : Bool :=
  if userName = [] then false
  else hasMention (toLower userName) (toLower (input.title ++ ' ' :: input.body))

/-- The pattern string `@${userName}\b` passed to `new RegExp` by
containsMention. -/
def mentionRegexSource (userName : List Char) : List Char :=
  '@' :: userName ++ ['\\', 'b']

/-- Group-parenthesis wellformedness of a JS regex pattern: an unescaped
'(' must be closed and an unescaped ')' must close an open group, otherwise
`new RegExp` throws a SyntaxError.  A backslash escapes the next character. -/
def groupsBalanced (depth : Nat) (pattern : List Char) : Bool :=
  match pattern with
  | [] => depth = 0
  | '\\' :: _ :: rest => groupsBalanced depth rest
  | '(' :: rest => groupsBalanced (depth + 1) rest
  | ')' :: rest => decide (depth ≠ 0) && groupsBalanced (depth - 1) rest
  | _ :: rest => groupsBalanced depth rest

/-- containsMention with the `new RegExp` construction step made explicit as a
fallible operation: when the pattern `@${userName}\b` is not a wellformed
regex (unbalanced group parenthesis), the construction throws in JS — the
source has no try/catch around it — modeled as `Except.error ()`. -/
def containsMentionChecked (userName : List Char) (input : NotificationInput) :
    Except Unit Bool :=
  if userName = [] then Except.ok false
  else if groupsBalanced 0 (mentionRegexSource userName) then
    Except.ok (hasMention (toLower userName) (toLower (input.title ++ ' ' :: input.body)))
  else Except.error ()

/-- ProcessedNotification from notificationManager.ts: input, action,
timestamp.  The extra `id` field models JavaScript object identity: each
record is a distinct heap object; the id is assigned from the length of the
processed history at creation time, which is unique because the source only
ever appends to `processedNotifications`. -/
structure ProcessedNotification where
  input : NotificationInput
  action : Action
  timestamp : Int
  id : Nat
deriving DecidableEq

/-- A synchronous callback invocation performed by the manager. -/
inductive Emit where
  | unreadCount (n : Nat)
  | importantCount (n : Nat)
  | focusChanged (enabled : Bool)
  | afkChanged (enabled : Bool)
deriving DecidableEq

/-- The mutable fields of the NotificationManager class. -/
structure ManagerState where
  processed : List ProcessedNotification
  digested : List ProcessedNotification
  important : List ProcessedNotification
  rules : List Rule
  state : RouterState
  userName : List Char
deriving DecidableEq

/-- processNotification from notificationManager.ts (lines 133-200), with
`Date.now()` injected as `now`.  Returns the action, the new manager state and
the callbacks invoked. -/
def processNotification (st : ManagerState) (input : NotificationInput)
    (now : Int) : Action × ManagerState × List Emit :=
  if containsMention st.userName input then
    let record : ProcessedNotification := ⟨input, Action.allow, now, st.processed.length⟩
    let st' := { st with processed := st.processed ++ [record],
                         important := st.important ++ [record] }
    (Action.allow, st', [Emit.importantCount st'.important.length])
  else if st.state.afkMode then
    let record : ProcessedNotification := ⟨input, Action.digest, now, st.processed.length⟩
    let st' := { st with processed := st.processed ++ [record],
                         digested := st.digested ++ [record] }
    (Action.digest, st', [Emit.unreadCount st'.digested.length])
  else if st.state.focusMode then
    let record : ProcessedNotification := ⟨input, Action.digest, now, st.processed.length⟩
    let st' := { st with processed := st.processed ++ [record],
                         digested := st.digested ++ [record] }
    (Action.digest, st', [Emit.unreadCount st'.digested.length])
  else
    let act := route input st.state st.rules defaultMatchConditions now
    let record : ProcessedNotification := ⟨input, act, now, st.processed.length⟩
    let st1 := { st with processed := st.processed ++ [record] }
    match act with
    | Action.digest =>
        let st' := { st1 with digested := st1.digested ++ [record] }
        (Action.digest, st', [Emit.unreadCount st'.digested.length])
    | Action.allow =>
        let st' := { st1 with important := st1.important ++ [record] }
        (Action.allow, st',
          if st.state.focusMode then [] else [Emit.importantCount st'.important.length])
    | Action.suppress => (Action.suppress, st1, [])

/-- markAsRead from notificationManager.ts: splice out the record at the given
index of the digested list when the index is in range, else do nothing. -/
def markAsRead (st : ManagerState) (index : Int) : ManagerState × List Emit :=
  if 0 ≤ index ∧ index < (st.digested.length : Int) then
    let st' := { st with digested := st.digested.eraseIdx index.toNat }
    (st', [Emit.unreadCount st'.digested.length])
  else (st, [])

/-- markImportantAsRead from notificationManager.ts. -/
def markImportantAsRead (st : ManagerState) (index : Int) : ManagerState × List Emit :=
  if 0 ≤ index ∧ index < (st.important.length : Int) then
    let st' := { st with important := st.important.eraseIdx index.toNat }
    (st', [Emit.importantCount st'.important.length])
  else (st, [])

/-- clearDigested from notificationManager.ts. -/
def clearDigested (st : ManagerState) : ManagerState × List Emit :=
  ({ st with digested := [] }, [Emit.unreadCount 0])

/-- clearImportant from notificationManager.ts. -/
def clearImportant (st : ManagerState) : ManagerState × List Emit :=
  ({ st with important := [] }, [Emit.importantCount 0])

/-- toggleFocusMode from notificationManager.ts. -/
def toggleFocusMode (st : ManagerState) : Bool × ManagerState × List Emit :=
  let st' := { st with state := { st.state with focusMode := ! st.state.focusMode } }
  (st'.state.focusMode, st', [Emit.focusChanged st'.state.focusMode])

/-- toggleAFKMode from notificationManager.ts. -/
def toggleAFKMode (st : ManagerState) : Bool × ManagerState × List Emit :=
  let st' := { st with state := { st.state with afkMode := ! st.state.afkMode } }
  (st'.state.afkMode, st', [Emit.afkChanged st'.state.afkMode])

/-- setState from notificationManager.ts. -/
def setState (st : ManagerState) (s : RouterState) : ManagerState :=
  { st with state := s }

/-- setRules from notificationManager.ts. -/
def setRules (st : ManagerState) (rules : List Rule) : ManagerState :=
  { st with rules := rules }

/-- setUserName from notificationManager.ts. -/
def setUserName (st : ManagerState) (name : List Char) : ManagerState :=
  { st with userName := name }

/-- Default rules installed by the NotificationManager constructor. -/
def defaultRules : List Rule :=
  [⟨"Git".toList, some ("conflict".toList), Action.suppress⟩,
   ⟨"Build".toList, some ("succeeded".toList), Action.suppress⟩,
   ⟨"Test".toList, some ("passed".toList), Action.suppress⟩,
   ⟨"*".toList, none, Action.digest⟩]

/-- The manager state produced by the constructor: empty histories, default
rules, focus and AFK off, no snooze, no configured user name. -/
def initialManagerState : ManagerState :=
  { processed := [], digested := [], important := [],
    rules := defaultRules,
    state := { focusMode := false, afkMode := false, snoozeUntil := none },
    userName := [] }

/-- The operations of the ledger wrapper, for reasoning about arbitrary
operation sequences. -/
inductive Op where
  | classify (input : NotificationInput) (now : Int)
  | markRead (index : Int)
  | markImportantRead (index : Int)
  | clearDig
  | clearImp
  | toggleFocus
  | toggleAfk
  | setStateOp (s : RouterState)
  | setRulesOp (rules : List Rule)
  | setUserNameOp (name : List Char)

/-- Apply one operation to the manager state. -/
def applyOp (st : ManagerState) : Op → ManagerState
  | Op.classify input now => (processNotification st input now).2.1
  | Op.markRead i => (markAsRead st i).1
  | Op.markImportantRead i => (markImportantAsRead st i).1
  | Op.clearDig => (clearDigested st).1
  | Op.clearImp => (clearImportant st).1
  | Op.toggleFocus => (toggleFocusMode st).2.1
  | Op.toggleAfk => (toggleAFKMode st).2.1
  | Op.setStateOp s => setState st s
  | Op.setRulesOp rs => setRules st rs
  | Op.setUserNameOp n => setUserName st n

/-- Apply a sequence of operations in order. -/
def applyOps (st : ManagerState) (ops : List Op) : ManagerState :=
  ops.foldl applyOp st

/-- Stable insertion of a record into a list sorted by timestamp descending:
the record goes in front of the first element with a less-or-equal timestamp,
so among equal timestamps earlier records stay first. -/
def insertDesc (x : ProcessedNotification) :
    List ProcessedNotification → List ProcessedNotification
  | [] => [x]
  | s :: ss =>
      if s.timestamp ≤ x.timestamp then x :: s :: ss
      else s :: insertDesc x ss

/-- Stable sort by timestamp descending, modeling `Array.prototype.sort` with
comparator `(a, b) => b.timestamp - a.timestamp` (stable per the ECMAScript
specification). -/
def sortDesc : List ProcessedNotification → List ProcessedNotification
  | [] => []
  | r :: rest => insertDesc r (sortDesc rest)

/-- getAllNotificationsSorted from notificationManager.ts: copy important
then digested into one array and stable-sort it by timestamp descending. -/
def getAllNotificationsSorted (st : ManagerState) : List ProcessedNotification :=
  sortDesc (st.important ++ st.digested)

/-- Decidable check of the ledger invariant claimed by the spec: no record is
in both partitions (record identity modeled by `id`), and neither partition
retains a record classified suppress. -/
def partitionsExclusive (st : ManagerState) : Bool :=
  st.important.all (fun r => st.digested.all (fun r2 => r.id != r2.id)) &&
  st.important.all (fun r => r.action != Action.suppress) &&
  st.digested.all (fun r => r.action != Action.suppress)

/-! ### Helper lemmas about the matchers and the router -/

lemma star_toList : "*".toList = ['*'] := rfl

/-- `includes` is substring containment. -/
lemma includes_iff_infix (haystack needle : List Char) :
    includes haystack needle = true ↔ needle <:+: haystack := by
  induction haystack with
  | nil =>
    simp only [includes, List.isEmpty_iff]
    constructor
    · intro h; simp [h]
    · intro h; simpa using List.eq_nil_of_infix_nil h
  | cons c rest ih =>
    simp only [includes, Bool.or_eq_true, List.infix_cons_iff, ih]
    constructor
    · rintro (h | h)
      · exact Or.inl (List.isPrefixOf_iff_prefix.mp h)
      · exact Or.inr h
    · rintro (h | h)
      · exact Or.inl (List.isPrefixOf_iff_prefix.mpr h)
      · exact Or.inr h

/-- Rules that all fail are skipped by the first-match scan. -/
lemma firstMatch_append_fail (conditions : List MatchCondition)
    (input : NotificationInput) (pre l : List Rule)
    (h : pre.all (fun r => ! rulePasses conditions input r) = true) :
    firstMatch conditions input (pre ++ l) = firstMatch conditions input l := by
  induction pre with
  | nil => rfl
  | cons a as ih =>
    simp only [List.all_cons, Bool.and_eq_true, Bool.not_eq_true'] at h
    simpa [firstMatch, h.1] using ih (by simpa using h.2)

/-- If every rule fails, the scan returns none. -/
lemma firstMatch_eq_none (conditions : List MatchCondition)
    (input : NotificationInput) (rules : List Rule)
    (h : rules.all (fun r => ! rulePasses conditions input r) = true) :
    firstMatch conditions input rules = none := by
  have := firstMatch_append_fail conditions input rules [] h
  simpa using this

/-! ### C1: the router's three-step algorithm -/

/-- C1: for every event, router state, rule list, condition list and injected
clock, `route` returns Digest when the snooze guard holds, for every rule
list (rules are not consulted); otherwise the action of the first rule all of
whose conditions pass, independently of the rules that come after it; and
when every rule fails, Digest under focusMode and Allow otherwise. -/
theorem c1_route_spec (input : NotificationInput) (state : RouterState)
    (conditions : List MatchCondition) (now : Int) :
    (snoozeActive state.snoozeUntil now = true →
      ∀ rules : List Rule, route input state rules conditions now = Action.digest)
    ∧ (snoozeActive state.snoozeUntil now = false →
      ∀ (pre : List Rule) (rule : Rule) (post : List Rule),
        pre.all (fun r => ! rulePasses conditions input r) = true →
        rulePasses conditions input rule = true →
        route input state (pre ++ rule :: post) conditions now = rule.action)
    ∧ (snoozeActive state.snoozeUntil now = false →
      ∀ rules : List Rule, rules.all (fun r => ! rulePasses conditions input r) = true →
        route input state rules conditions now =
          (if state.focusMode then Action.digest else Action.allow)) := by
  refine ⟨fun h rules => ?_, fun h pre rule post hpre hrule => ?_, fun h rules hall => ?_⟩
  · simp [route, h]
  · rw [route, h]
    simp only [Bool.false_eq_true, if_false]
    rw [firstMatch_append_fail conditions input pre (rule :: post) hpre]
    simp [firstMatch, hrule]
  · rw [route, h]
    simp only [Bool.false_eq_true, if_false]
    rw [firstMatch_eq_none conditions input rules hall]

/-- Event, state and rules for the C1 witness: the spec's own scenario
(router.js self-check): rules [Git+pull→suppress, *→digest] prefixed by a
non-matching Email rule, event from Git with "pull finished". -/
def c1wInput : NotificationInput :=
  ⟨"Git".toList, "Done".toList, "pull finished".toList⟩

def c1wState : RouterState := ⟨false, false, none⟩

def c1wPre : List Rule := [⟨"Email".toList, none, Action.allow⟩]

def c1wRule : Rule := ⟨"Git".toList, some ("pull".toList), Action.suppress⟩

def c1wPost : List Rule := [⟨"*".toList, none, Action.digest⟩]

/-- Witness for C1 at the spec's scenario. -/
theorem c1_route_spec_witness :
    route c1wInput c1wState (c1wPre ++ c1wRule :: c1wPost) defaultMatchConditions 1000 =
      c1wRule.action :=
  (c1_route_spec c1wInput c1wState defaultMatchConditions 1000).2.1 (by decide)
    c1wPre c1wRule c1wPost (by decide) (by decide)

/-! ### C4: the two built-in match conditions -/

/-- The source condition in the spec's words: `rule.source == "*"` or equal
to `event.source` case-insensitively. -/
def sourceMatchesSpec (rule : Rule) (input : NotificationInput) : Prop :=
  rule.source = "*".toList ∨ toLower rule.source = toLower input.source

/-- The contains condition in the spec's words: `rule.contains` absent or
trims to empty, or the lowercased `title + "\n" + body` contains the
lowercased, trimmed `rule.contains` as a substring. -/
def containsMatchesSpec (rule : Rule) (input : NotificationInput) : Prop :=
  match rule.contains with
  | none => True
  | some c =>
      trim c = [] ∨
      toLower (trim c) <:+: toLower (input.title ++ '\n' :: input.body)

/-- C4: the source and contains conditions hold exactly as the spec states
them, and a rule matches (all default conditions pass) iff both hold. -/
theorem c4_matchers_spec (rule : Rule) (input : NotificationInput) :
    (sourceMatches rule input = true ↔ sourceMatchesSpec rule input)
    ∧ (containsMatches rule input = true ↔ containsMatchesSpec rule input)
    ∧ (rulePasses defaultMatchConditions input rule = true ↔
        sourceMatchesSpec rule input ∧ containsMatchesSpec rule input) := by
  have hsource : sourceMatches rule input = true ↔ sourceMatchesSpec rule input := by
    by_cases h : rule.source = ['*'] <;>
      simp [sourceMatches, sourceMatchesSpec, star_toList, h]
  have hcontains : containsMatches rule input = true ↔ containsMatchesSpec rule input := by
    cases hc : rule.contains with
    | none => simp [containsMatches, containsMatchesSpec, hc]
    | some c =>
      by_cases ht : trim c = []
      · simp [containsMatches, containsMatchesSpec, hc, ht]
      · simp [containsMatches, containsMatchesSpec, hc, ht, includes_iff_infix]
  refine ⟨hsource, hcontains, ?_⟩
  simp only [rulePasses, defaultMatchConditions, List.all_cons, List.all_nil,
    Bool.and_eq_true, Bool.and_true]
  rw [hsource, hcontains]

/-! ### Helper lemmas about the mention check -/

lemma toLower_append (a b : List Char) : toLower (a ++ b) = toLower a ++ toLower b :=
  List.map_append Char.toLower a b

lemma toLower_space_cons (b : List Char) : toLower (' ' :: b) = ' ' :: toLower b := by
  simp only [toLower, List.map_cons]
  congr 1

/-- A mention match at the head of `t` is still a match when text follows,
provided the first following character is not a word character (here: the
space the source inserts between title and body). -/
lemma mentionHere_append_space (name t b : List Char)
    (h : mentionHere name t = true) :
    mentionHere name (t ++ ' ' :: b) = true := by
  cases t with
  | nil => simp [mentionHere] at h
  | cons c rest =>
    simp only [mentionHere, Bool.and_eq_true, decide_eq_true_eq] at h
    obtain ⟨⟨hc, hpre⟩, hbound⟩ := h
    have hprefix : name <+: rest := List.isPrefixOf_iff_prefix.mp hpre
    simp only [List.cons_append, mentionHere, Bool.and_eq_true, decide_eq_true_eq]
    have hprefix2 : name <+: rest ++ (' ' :: b) := by
      obtain ⟨t, ht⟩ := hprefix
      exact ⟨t ++ (' ' :: b), by rw [← ht]; simp⟩
    refine ⟨⟨hc, List.isPrefixOf_iff_prefix.mpr hprefix2⟩, ?_⟩
    rw [List.drop_append_eq_append_drop]
    cases hd : rest.drop name.length with
    | nil =>
      have hle := hprefix.length_le
      have hlen : rest.length ≤ name.length := List.drop_eq_nil_iff.mp hd
      have hlen' : name.length - rest.length = 0 := by omega
      simp only [hd, hlen', List.nil_append, List.drop_zero]
      decide
    | cons d tl =>
      rw [hd] at hbound
      have hbound' : (! isWordChar d) = true := hbound
      simp [hd, hbound']

/-- A mention anywhere in `t` survives appending ` ` followed by more text. -/
lemma hasMention_append_space (name t b : List Char)
    (h : hasMention name t = true) :
    hasMention name (t ++ ' ' :: b) = true := by
  induction t with
  | nil => simp [hasMention] at h
  | cons c rest ih =>
    simp only [hasMention, Bool.or_eq_true] at h
    rcases h with h | h
    · have := mentionHere_append_space name (c :: rest) b h
      simp only [List.cons_append] at this ⊢
      simp [hasMention, this]
    · simp only [List.cons_append]
      simp [hasMention, ih h]

/-- A mention in `b` is a mention in `a ++ b`. -/
lemma hasMention_append_left (name a b : List Char)
    (h : hasMention name b = true) :
    hasMention name (a ++ b) = true := by
  induction a with
  | nil => simpa using h
  | cons c rest ih =>
    simp only [List.cons_append]
    simp [hasMention, ih]

/-- A mention token in the title or in the body is found by containsMention,
which tests the regex against `title ++ " " ++ body`. -/
lemma containsMention_of_part (userName : List Char) (input : NotificationInput)
    (hne : userName ≠ [])
    (h : hasMention (toLower userName) (toLower input.title) = true ∨
         hasMention (toLower userName) (toLower input.body) = true) :
    containsMention userName input = true := by
  unfold containsMention
  rw [if_neg hne, toLower_append, toLower_space_cons]
  rcases h with h | h
  · exact hasMention_append_space _ _ _ h
  · have : toLower input.title ++ ' ' :: toLower input.body =
        (toLower input.title ++ [' ']) ++ toLower input.body := by simp
    rw [this]
    exact hasMention_append_left _ _ _ h

/-! ### Branch equations for processNotification -/

lemma pn_mention (st : ManagerState) (input : NotificationInput) (now : Int)
    (h : containsMention st.userName input = true) :
    processNotification st input now =
      (Action.allow,
       { st with
           processed := st.processed ++ [⟨input, Action.allow, now, st.processed.length⟩],
           important := st.important ++ [⟨input, Action.allow, now, st.processed.length⟩] },
       [Emit.importantCount (st.important.length + 1)]) := by
  simp [processNotification, h]

lemma pn_afk (st : ManagerState) (input : NotificationInput) (now : Int)
    (h1 : containsMention st.userName input = false)
    (h2 : st.state.afkMode = true) :
    processNotification st input now =
      (Action.digest,
       { st with
           processed := st.processed ++ [⟨input, Action.digest, now, st.processed.length⟩],
           digested := st.digested ++ [⟨input, Action.digest, now, st.processed.length⟩] },
       [Emit.unreadCount (st.digested.length + 1)]) := by
  simp [processNotification, h1, h2]

lemma pn_focus (st : ManagerState) (input : NotificationInput) (now : Int)
    (h1 : containsMention st.userName input = false)
    (h2 : st.state.afkMode = false)
    (h3 : st.state.focusMode = true) :
    processNotification st input now =
      (Action.digest,
       { st with
           processed := st.processed ++ [⟨input, Action.digest, now, st.processed.length⟩],
           digested := st.digested ++ [⟨input, Action.digest, now, st.processed.length⟩] },
       [Emit.unreadCount (st.digested.length + 1)]) := by
  simp [processNotification, h1, h2, h3]

lemma pn_route_digest (st : ManagerState) (input : NotificationInput) (now : Int)
    (h1 : containsMention st.userName input = false)
    (h2 : st.state.afkMode = false)
    (h3 : st.state.focusMode = false)
    (hr : route input st.state st.rules defaultMatchConditions now = Action.digest) :
    processNotification st input now =
      (Action.digest,
       { st with
           processed := st.processed ++ [⟨input, Action.digest, now, st.processed.length⟩],
           digested := st.digested ++ [⟨input, Action.digest, now, st.processed.length⟩] },
       [Emit.unreadCount (st.digested.length + 1)]) := by
  simp [processNotification, h1, h2, h3, hr]

lemma pn_route_allow (st : ManagerState) (input : NotificationInput) (now : Int)
    (h1 : containsMention st.userName input = false)
    (h2 : st.state.afkMode = false)
    (h3 : st.state.focusMode = false)
    (hr : route input st.state st.rules defaultMatchConditions now = Action.allow) :
    processNotification st input now =
      (Action.allow,
       { st with
           processed := st.processed ++ [⟨input, Action.allow, now, st.processed.length⟩],
           important := st.important ++ [⟨input, Action.allow, now, st.processed.length⟩] },
       [Emit.importantCount (st.important.length + 1)]) := by
  simp [processNotification, h1, h2, h3, hr]

lemma pn_route_suppress (st : ManagerState) (input : NotificationInput) (now : Int)
    (h1 : containsMention st.userName input = false)
    (h2 : st.state.afkMode = false)
    (h3 : st.state.focusMode = false)
    (hr : route input st.state st.rules defaultMatchConditions now = Action.suppress) :
    processNotification st input now =
      (Action.suppress,
       { st with
           processed := st.processed ++ [⟨input, Action.suppress, now, st.processed.length⟩] },
       []) := by
  simp [processNotification, h1, h2, h3, hr]

/-! ### C2: the mention override -/

/-- C2: an event whose title or body contains `@` immediately followed by the
configured non-empty user name (a word-character token, matched
case-insensitively) as a word-boundary token is classified Allow and appended
to the important partition, for every manager state — i.e. regardless of
focus mode, AFK mode, snooze and rules; and with no configured user name the
override never fires. -/
theorem c2_mention_override :
    (∀ (st : ManagerState) (input : NotificationInput) (now : Int),
      st.userName ≠ [] →
      st.userName.all isWordChar = true →
      (hasMention (toLower st.userName) (toLower input.title) = true ∨
       hasMention (toLower st.userName) (toLower input.body) = true) →
      (processNotification st input now).1 = Action.allow ∧
      (processNotification st input now).2.1.important =
        st.important ++ [⟨input, Action.allow, now, st.processed.length⟩])
    ∧ ∀ (input : NotificationInput), containsMention [] input = false := by
  constructor
  · intro st input now hne _hw hm
    have hc := containsMention_of_part st.userName input hne hm
    rw [pn_mention st input now hc]
    exact ⟨rfl, rfl⟩
  · intro input
    rfl

/-- Manager state and event for the C2 witness: user name "alice", focus
mode on, AFK on and a snooze in the future, body mentioning @alice. -/
def c2wSt : ManagerState :=
  { initialManagerState with
      userName := "alice".toList,
      state := { focusMode := true, afkMode := true, snoozeUntil := some 99999 } }

def c2wInput : NotificationInput :=
  ⟨"Chat".toList, "hey".toList, "please review @Alice today".toList⟩

/-- Witness for C2: the mention override fires through focus, AFK and snooze. -/
theorem c2_mention_override_witness :
    (processNotification c2wSt c2wInput 7).1 = Action.allow ∧
    (processNotification c2wSt c2wInput 7).2.1.important =
      c2wSt.important ++ [⟨c2wInput, Action.allow, 7, c2wSt.processed.length⟩] :=
  c2_mention_override.1 c2wSt c2wInput 7 (by decide) (by decide) (Or.inr (by decide))

/-! ### C3: focus / AFK short-circuit in the stateful wrapper -/

/-- C3: for every event that does not trigger the mention override, when AFK
mode or focus mode is on, processNotification returns Digest and appends the
record to the digested partition while leaving important unchanged — for
every rule list, in particular when a rule with action Allow would match.
The embedding checks afkMode before focusMode exactly as the source does;
when both are set the two checks produce the same digest record, which the
theorem covers by allowing any combination with `∨`. -/
theorem c3_mode_short_circuit (st : ManagerState) (input : NotificationInput) (now : Int)
    (hm : containsMention st.userName input = false)
    (hmode : st.state.afkMode = true ∨ st.state.focusMode = true) :
    (processNotification st input now).1 = Action.digest ∧
    (processNotification st input now).2.1.digested =
      st.digested ++ [⟨input, Action.digest, now, st.processed.length⟩] ∧
    (processNotification st input now).2.1.important = st.important := by
  by_cases hafk : st.state.afkMode = true
  · rw [pn_afk st input now hm hafk]
    exact ⟨rfl, rfl, rfl⟩
  · have hafk' : st.state.afkMode = false := by simpa using hafk
    have hfocus : st.state.focusMode = true := by tauto
    rw [pn_focus st input now hm hafk' hfocus]
    exact ⟨rfl, rfl, rfl⟩

/-- Manager state for the C3 witness: AFK mode on, and a catch-all rule whose
action is Allow — the short-circuit must still digest the event. -/
def c3wSt : ManagerState :=
  { initialManagerState with
      state := { focusMode := false, afkMode := true, snoozeUntil := none },
      rules := [⟨"*".toList, none, Action.allow⟩] }

def c3wInput : NotificationInput :=
  ⟨"Git".toList, "Done".toList, "push finished".toList⟩

/-- Witness for C3: AFK digests an event that an Allow rule would match. -/
theorem c3_mode_short_circuit_witness :
    (processNotification c3wSt c3wInput 3).1 = Action.digest ∧
    (processNotification c3wSt c3wInput 3).2.1.digested =
      c3wSt.digested ++ [⟨c3wInput, Action.digest, 3, c3wSt.processed.length⟩] ∧
    (processNotification c3wSt c3wInput 3).2.1.important = c3wSt.important :=
  c3_mode_short_circuit c3wSt c3wInput 3 (by decide) (Or.inl (by decide))

/-! ### C10: classification does not mutate configuration or session state -/

/-- C10: processNotification leaves the rule list, the configured user name
and the mode flags (focusMode, afkMode, snoozeUntil — the whole router state)
unchanged, and only appends to the processed, important and digested lists. -/
theorem c10_classify_frame (st : ManagerState) (input : NotificationInput) (now : Int) :
    (processNotification st input now).2.1.rules = st.rules ∧
    (processNotification st input now).2.1.userName = st.userName ∧
    (processNotification st input now).2.1.state = st.state ∧
    (∃ t, (processNotification st input now).2.1.processed = st.processed ++ t) ∧
    (∃ t, (processNotification st input now).2.1.important = st.important ++ t) ∧
    (∃ t, (processNotification st input now).2.1.digested = st.digested ++ t) := by
  by_cases h1 : containsMention st.userName input = true
  · rw [pn_mention st input now h1]
    exact ⟨rfl, rfl, rfl, ⟨_, rfl⟩, ⟨_, rfl⟩, ⟨[], by simp⟩⟩
  · have h1' : containsMention st.userName input = false := by simpa using h1
    by_cases h2 : st.state.afkMode = true
    · rw [pn_afk st input now h1' h2]
      exact ⟨rfl, rfl, rfl, ⟨_, rfl⟩, ⟨[], by simp⟩, ⟨_, rfl⟩⟩
    · have h2' : st.state.afkMode = false := by simpa using h2
      by_cases h3 : st.state.focusMode = true
      · rw [pn_focus st input now h1' h2' h3]
        exact ⟨rfl, rfl, rfl, ⟨_, rfl⟩, ⟨[], by simp⟩, ⟨_, rfl⟩⟩
      · have h3' : st.state.focusMode = false := by simpa using h3
        cases hr : route input st.state st.rules defaultMatchConditions now with
        | allow =>
          rw [pn_route_allow st input now h1' h2' h3' hr]
          exact ⟨rfl, rfl, rfl, ⟨_, rfl⟩, ⟨_, rfl⟩, ⟨[], by simp⟩⟩
        | suppress =>
          rw [pn_route_suppress st input now h1' h2' h3' hr]
          exact ⟨rfl, rfl, rfl, ⟨_, rfl⟩, ⟨[], by simp⟩, ⟨[], by simp⟩⟩
        | digest =>
          rw [pn_route_digest st input now h1' h2' h3' hr]
          exact ⟨rfl, rfl, rfl, ⟨_, rfl⟩, ⟨[], by simp⟩, ⟨_, rfl⟩⟩

/-! ### C8: which count-changed callbacks a classify call fires -/

/-- Manager state for the C8 counterexample: focus mode on, user name
"alice". -/
def c8wSt : ManagerState :=
  { initialManagerState with
      userName := "alice".toList,
      state := { focusMode := true, afkMode := false, snoozeUntil := none } }

def c8wInput : NotificationInput :=
  ⟨"Chat".toList, "hi".toList, "ping @alice".toList⟩

/-- Counterexample to C8 as stated: with focus mode on, a mention event is
appended to the important partition AND the important-count callback is
invoked — the claim says the callback is not invoked when focus mode is on. -/
theorem c8_focus_mention_callback_cex :
    c8wSt.state.focusMode = true ∧
    (processNotification c8wSt c8wInput 5).2.1.important =
      c8wSt.important ++ [⟨c8wInput, Action.allow, 5, 0⟩] ∧
    (processNotification c8wSt c8wInput 5).2.2 = [Emit.importantCount 1] := by
  have hc : containsMention c8wSt.userName c8wInput = true := by decide
  rw [pn_mention c8wSt c8wInput 5 hc]
  exact ⟨rfl, rfl, rfl⟩

/-- C8 amended: every classify call either appends one record to important
and fires exactly the important-count callback (this includes mention events
during focus mode), or appends one record to digested and fires exactly the
unread-count callback, or changes neither partition and fires no callback.
The focus-mode guard on the important-count callback in the normal-routing
path never takes effect, because focus mode short-circuits to Digest before
that path is reached. -/
theorem c8_callbacks_per_partition (st : ManagerState) (input : NotificationInput)
    (now : Int) :
    ((∃ rec, (processNotification st input now).2.1.important = st.important ++ [rec]) ∧
      (processNotification st input now).2.1.digested = st.digested ∧
      (processNotification st input now).2.2 =
        [Emit.importantCount (processNotification st input now).2.1.important.length])
    ∨ ((processNotification st input now).2.1.important = st.important ∧
      (∃ rec, (processNotification st input now).2.1.digested = st.digested ++ [rec]) ∧
      (processNotification st input now).2.2 =
        [Emit.unreadCount (processNotification st input now).2.1.digested.length])
    ∨ ((processNotification st input now).2.1.important = st.important ∧
      (processNotification st input now).2.1.digested = st.digested ∧
      (processNotification st input now).2.2 = []) := by
  by_cases h1 : containsMention st.userName input = true
  · rw [pn_mention st input now h1]
    exact Or.inl ⟨⟨_, rfl⟩, rfl, by simp⟩
  · have h1' : containsMention st.userName input = false := by simpa using h1
    by_cases h2 : st.state.afkMode = true
    · rw [pn_afk st input now h1' h2]
      exact Or.inr (Or.inl ⟨rfl, ⟨_, rfl⟩, by simp⟩)
    · have h2' : st.state.afkMode = false := by simpa using h2
      by_cases h3 : st.state.focusMode = true
      · rw [pn_focus st input now h1' h2' h3]
        exact Or.inr (Or.inl ⟨rfl, ⟨_, rfl⟩, by simp⟩)
      · have h3' : st.state.focusMode = false := by simpa using h3
        cases hr : route input st.state st.rules defaultMatchConditions now with
        | allow =>
          rw [pn_route_allow st input now h1' h2' h3' hr]
          exact Or.inl ⟨⟨_, rfl⟩, rfl, by simp⟩
        | suppress =>
          rw [pn_route_suppress st input now h1' h2' h3' hr]
          exact Or.inr (Or.inr ⟨rfl, rfl, rfl⟩)
        | digest =>
          rw [pn_route_digest st input now h1' h2' h3' hr]
          exact Or.inr (Or.inl ⟨rfl, ⟨_, rfl⟩, by simp⟩)

/-! ### C9: markAsRead bounds behavior -/

/-- C9: for either partition, an out-of-range index (negative or at least the
partition length) makes the mark-as-read operation a no-op returning the
state unchanged with no callback, and a valid index removes exactly the
record at that position, leaving the other lists untouched. -/
theorem c9_mark_read_bounds (st : ManagerState) (index : Int) :
    ((index < 0 ∨ (st.digested.length : Int) ≤ index) → markAsRead st index = (st, [])) ∧
    (0 ≤ index → index < (st.digested.length : Int) →
      (markAsRead st index).1.digested =
        st.digested.take index.toNat ++ st.digested.drop (index.toNat + 1) ∧
      (markAsRead st index).1.important = st.important ∧
      (markAsRead st index).1.processed = st.processed) ∧
    ((index < 0 ∨ (st.important.length : Int) ≤ index) →
      markImportantAsRead st index = (st, [])) ∧
    (0 ≤ index → index < (st.important.length : Int) →
      (markImportantAsRead st index).1.important =
        st.important.take index.toNat ++ st.important.drop (index.toNat + 1) ∧
      (markImportantAsRead st index).1.digested = st.digested ∧
      (markImportantAsRead st index).1.processed = st.processed) := by
  refine ⟨fun h => ?_, fun h0 hlt => ?_, fun h => ?_, fun h0 hlt => ?_⟩
  · rw [markAsRead, if_neg]
    rintro ⟨ha, hb⟩
    rcases h with h | h <;> omega
  · rw [markAsRead, if_pos ⟨h0, hlt⟩]
    exact ⟨List.eraseIdx_eq_take_drop_succ _ _, rfl, rfl⟩
  · rw [markImportantAsRead, if_neg]
    rintro ⟨ha, hb⟩
    rcases h with h | h <;> omega
  · rw [markImportantAsRead, if_pos ⟨h0, hlt⟩]
    exact ⟨List.eraseIdx_eq_take_drop_succ _ _, rfl, rfl⟩

/-- Manager state for the C9 witness: two digested records and one important
record. -/
def c9wSt : ManagerState :=
  { initialManagerState with
      digested := [⟨⟨"Git".toList, "t1".toList, "b1".toList⟩, Action.digest, 1, 0⟩,
                   ⟨⟨"Build".toList, "t2".toList, "b2".toList⟩, Action.digest, 2, 1⟩],
      important := [⟨⟨"Test".toList, "t3".toList, "b3".toList⟩, Action.allow, 3, 2⟩] }

/-- Witness for C9: index 5 and index -1 are no-ops; index 1 removes exactly
the second digested record. -/
theorem c9_mark_read_bounds_witness :
    markAsRead c9wSt 5 = (c9wSt, []) ∧
    markImportantAsRead c9wSt (-1) = (c9wSt, []) ∧
    (markAsRead c9wSt 1).1.digested =
      c9wSt.digested.take (1 : Int).toNat ++ c9wSt.digested.drop ((1 : Int).toNat + 1) :=
  ⟨(c9_mark_read_bounds c9wSt 5).1 (Or.inr (by decide)),
   (c9_mark_read_bounds c9wSt (-1)).2.2.1 (Or.inl (by decide)),
   ((c9_mark_read_bounds c9wSt 1).2.1 (by decide) (by decide)).1⟩

/-! ### C6: the mention regex construction is not total in the user name -/

/-- C6 evidence: for the configured user name "(" the pattern `@(\b` passed
to `new RegExp` is not a wellformed regex, so the construction in
containsMention raises (there is no try/catch in the source) instead of
failing closed; for the word user name "alice" the same construction
succeeds and the mention matches. -/
theorem c6_username_regex_error :
    containsMentionChecked "(".toList ⟨"Git".toList, "hi".toList, "x".toList⟩ =
      Except.error ()
    ∧ containsMentionChecked "alice".toList
        ⟨"Chat".toList, "hi".toList, "ping @alice".toList⟩ = Except.ok true :=
  ⟨rfl, rfl⟩

/-! ### Helper lemmas about the stable sort -/

lemma perm_insertDesc (x : ProcessedNotification) (l : List ProcessedNotification) :
    (insertDesc x l).Perm (x :: l) := by
  induction l with
  | nil => exact List.Perm.refl _
  | cons s ss ih =>
    by_cases hle : s.timestamp ≤ x.timestamp
    · simp only [insertDesc]
      rw [if_pos hle]
    · simp only [insertDesc]
      rw [if_neg hle]
      exact List.Perm.trans (List.Perm.cons s ih) (List.Perm.swap x s ss)

lemma mem_insertDesc (y x : ProcessedNotification) (l : List ProcessedNotification) :
    y ∈ insertDesc x l ↔ y = x ∨ y ∈ l := by
  rw [(perm_insertDesc x l).mem_iff, List.mem_cons]

lemma sorted_insertDesc (x : ProcessedNotification) (l : List ProcessedNotification)
    (h : List.Sorted (fun a b => b.timestamp ≤ a.timestamp) l) :
    List.Sorted (fun a b => b.timestamp ≤ a.timestamp) (insertDesc x l) := by
  induction l with
  | nil => simp [insertDesc]
  | cons s ss ih =>
    rw [List.sorted_cons] at h
    obtain ⟨hs, hss⟩ := h
    by_cases hle : s.timestamp ≤ x.timestamp
    · simp only [insertDesc]
      rw [if_pos hle, List.sorted_cons]
      refine ⟨?_, ?_⟩
      · intro b hb
        rcases List.mem_cons.mp hb with rfl | hb
        · exact hle
        · exact le_trans (hs b hb) hle
      · rw [List.sorted_cons]
        exact ⟨hs, hss⟩
    · simp only [insertDesc]
      rw [if_neg hle, List.sorted_cons]
      refine ⟨?_, ih hss⟩
      intro b hb
      rcases (mem_insertDesc b x ss).mp hb with rfl | hb
      · exact le_of_lt (lt_of_not_le hle)
      · exact hs b hb

lemma filter_insertDesc (x : ProcessedNotification) (l : List ProcessedNotification)
    (t : Int) :
    (insertDesc x l).filter (fun r => decide (r.timestamp = t)) =
      (x :: l).filter (fun r => decide (r.timestamp = t)) := by
  induction l with
  | nil => rfl
  | cons s ss ih =>
    by_cases hle : s.timestamp ≤ x.timestamp
    · simp only [insertDesc]
      rw [if_pos hle]
    · simp only [insertDesc]
      rw [if_neg hle]
      by_cases hx : x.timestamp = t
      · have hs : ¬ s.timestamp = t := by omega
        simp [List.filter_cons, hx, hs, ih]
      · simp [List.filter_cons, hx, ih]

lemma perm_sortDesc (l : List ProcessedNotification) : (sortDesc l).Perm l := by
  induction l with
  | nil => exact List.Perm.refl _
  | cons r rest ih =>
    exact List.Perm.trans (perm_insertDesc r (sortDesc rest)) (List.Perm.cons r ih)

lemma sorted_sortDesc (l : List ProcessedNotification) :
    List.Sorted (fun a b => b.timestamp ≤ a.timestamp) (sortDesc l) := by
  induction l with
  | nil => simp [sortDesc]
  | cons r rest ih => exact sorted_insertDesc r (sortDesc rest) ih

lemma filter_sortDesc (l : List ProcessedNotification) (t : Int) :
    (sortDesc l).filter (fun r => decide (r.timestamp = t)) =
      l.filter (fun r => decide (r.timestamp = t)) := by
  induction l with
  | nil => rfl
  | cons r rest ih =>
    rw [sortDesc, filter_insertDesc]
    simp [List.filter_cons, ih]

/-! ### C7: the combined sorted listing -/

/-- C7: getAllNotificationsSorted returns exactly the records of the
important and digested partitions (a fresh list, built by copying both
partitions), sorted by timestamp descending; and it is the stable such
ordering: restricted to any fixed timestamp it coincides with the
concatenation important-then-digested, each partition in insertion order —
so equal-timestamp records keep important before digested and insertion
order within a partition. -/
theorem c7_sorted_listing (st : ManagerState) :
    (getAllNotificationsSorted st).Perm (st.important ++ st.digested) ∧
    List.Sorted (fun a b => b.timestamp ≤ a.timestamp) (getAllNotificationsSorted st) ∧
    ∀ t : Int,
      (getAllNotificationsSorted st).filter (fun r => decide (r.timestamp = t)) =
        (st.important ++ st.digested).filter (fun r => decide (r.timestamp = t)) :=
  ⟨perm_sortDesc _, sorted_sortDesc _, fun t => filter_sortDesc _ t⟩

/-! ### C5: the ledger invariant -/

/-- The inductive invariant carried across operations: every record held in a
partition is the record stored at position `id` of the append-only processed
history (so `id` identifies it uniquely), important records have action
allow, digested records have action digest. -/
def LedgerInv (st : ManagerState) : Prop :=
  (∀ r ∈ st.important, st.processed[r.id]? = some r ∧ r.action = Action.allow) ∧
  (∀ r ∈ st.digested, st.processed[r.id]? = some r ∧ r.action = Action.digest)

lemma getElem?_append_of_some {l l2 : List ProcessedNotification} {i : Nat}
    {r : ProcessedNotification} (h : l[i]? = some r) : (l ++ l2)[i]? = some r := by
  have hi : i < l.length := (List.getElem?_eq_some.mp h).1
  rw [List.getElem?_append_left hi]
  exact h

lemma ledgerInv_initial : LedgerInv initialManagerState := by
  constructor <;> simp [initialManagerState]

lemma ledgerInv_push_important (st : ManagerState) (input : NotificationInput)
    (now : Int) (h : LedgerInv st) :
    LedgerInv { st with
      processed := st.processed ++ [⟨input, Action.allow, now, st.processed.length⟩],
      important := st.important ++ [⟨input, Action.allow, now, st.processed.length⟩] } := by
  obtain ⟨hi, hd⟩ := h
  constructor
  · intro r hr
    rcases List.mem_append.mp hr with hr | hr
    · obtain ⟨hg, ha⟩ := hi r hr
      exact ⟨getElem?_append_of_some hg, ha⟩
    · rcases List.mem_singleton.mp hr with rfl
      exact ⟨List.getElem?_concat_length st.processed _, rfl⟩
  · intro r hr
    obtain ⟨hg, ha⟩ := hd r hr
    exact ⟨getElem?_append_of_some hg, ha⟩

lemma ledgerInv_push_digested (st : ManagerState) (input : NotificationInput)
    (now : Int) (h : LedgerInv st) :
    LedgerInv { st with
      processed := st.processed ++ [⟨input, Action.digest, now, st.processed.length⟩],
      digested := st.digested ++ [⟨input, Action.digest, now, st.processed.length⟩] } := by
  obtain ⟨hi, hd⟩ := h
  constructor
  · intro r hr
    obtain ⟨hg, ha⟩ := hi r hr
    exact ⟨getElem?_append_of_some hg, ha⟩
  · intro r hr
    rcases List.mem_append.mp hr with hr | hr
    · obtain ⟨hg, ha⟩ := hd r hr
      exact ⟨getElem?_append_of_some hg, ha⟩
    · rcases List.mem_singleton.mp hr with rfl
      exact ⟨List.getElem?_concat_length st.processed _, rfl⟩

lemma ledgerInv_push_processed (st : ManagerState) (input : NotificationInput)
    (now : Int) (h : LedgerInv st) :
    LedgerInv { st with
      processed := st.processed ++ [⟨input, Action.suppress, now, st.processed.length⟩] } := by
  obtain ⟨hi, hd⟩ := h
  constructor
  · intro r hr
    obtain ⟨hg, ha⟩ := hi r hr
    exact ⟨getElem?_append_of_some hg, ha⟩
  · intro r hr
    obtain ⟨hg, ha⟩ := hd r hr
    exact ⟨getElem?_append_of_some hg, ha⟩

lemma ledgerInv_classify (st : ManagerState) (input : NotificationInput) (now : Int)
    (h : LedgerInv st) : LedgerInv (processNotification st input now).2.1 := by
  by_cases h1 : containsMention st.userName input = true
  · rw [pn_mention st input now h1]
    exact ledgerInv_push_important st input now h
  · have h1' : containsMention st.userName input = false := by simpa using h1
    by_cases h2 : st.state.afkMode = true
    · rw [pn_afk st input now h1' h2]
      exact ledgerInv_push_digested st input now h
    · have h2' : st.state.afkMode = false := by simpa using h2
      by_cases h3 : st.state.focusMode = true
      · rw [pn_focus st input now h1' h2' h3]
        exact ledgerInv_push_digested st input now h
      · have h3' : st.state.focusMode = false := by simpa using h3
        cases hr : route input st.state st.rules defaultMatchConditions now with
        | allow =>
          rw [pn_route_allow st input now h1' h2' h3' hr]
          exact ledgerInv_push_important st input now h
        | suppress =>
          rw [pn_route_suppress st input now h1' h2' h3' hr]
          exact ledgerInv_push_processed st input now h
        | digest =>
          rw [pn_route_digest st input now h1' h2' h3' hr]
          exact ledgerInv_push_digested st input now h

lemma ledgerInv_markRead (st : ManagerState) (i : Int) (h : LedgerInv st) :
    LedgerInv (markAsRead st i).1 := by
  obtain ⟨hi, hd⟩ := h
  rw [markAsRead]
  by_cases hc : 0 ≤ i ∧ i < (st.digested.length : Int)
  · rw [if_pos hc]
    exact ⟨hi, fun r hr => hd r (List.eraseIdx_subset st.digested i.toNat hr)⟩
  · rw [if_neg hc]
    exact ⟨hi, hd⟩

lemma ledgerInv_markImportantRead (st : ManagerState) (i : Int) (h : LedgerInv st) :
    LedgerInv (markImportantAsRead st i).1 := by
  obtain ⟨hi, hd⟩ := h
  rw [markImportantAsRead]
  by_cases hc : 0 ≤ i ∧ i < (st.important.length : Int)
  · rw [if_pos hc]
    exact ⟨fun r hr => hi r (List.eraseIdx_subset st.important i.toNat hr), hd⟩
  · rw [if_neg hc]
    exact ⟨hi, hd⟩

lemma ledgerInv_applyOp (st : ManagerState) (op : Op) (h : LedgerInv st) :
    LedgerInv (applyOp st op) := by
  cases op with
  | classify input now => exact ledgerInv_classify st input now h
  | markRead i => exact ledgerInv_markRead st i h
  | markImportantRead i => exact ledgerInv_markImportantRead st i h
  | clearDig => exact ⟨h.1, fun r hr => absurd hr (List.not_mem_nil r)⟩
  | clearImp => exact ⟨fun r hr => absurd hr (List.not_mem_nil r), h.2⟩
  | toggleFocus => exact h
  | toggleAfk => exact h
  | setStateOp s => exact h
  | setRulesOp rs => exact h
  | setUserNameOp n => exact h

lemma ledgerInv_applyOps (ops : List Op) :
    ∀ st : ManagerState, LedgerInv st → LedgerInv (applyOps st ops) := by
  induction ops with
  | nil => intro st h; exact h
  | cons op rest ih => intro st h; exact ih _ (ledgerInv_applyOp st op h)

lemma ledgerInv_partitionsExclusive (st : ManagerState) (h : LedgerInv st) :
    partitionsExclusive st = true := by
  obtain ⟨hi, hd⟩ := h
  simp only [partitionsExclusive, Bool.and_eq_true, List.all_eq_true, bne_iff_ne,
    ne_eq]
  refine ⟨⟨?_, ?_⟩, ?_⟩
  · intro r hr r2 hr2 heq
    obtain ⟨hg1, ha1⟩ := hi r hr
    obtain ⟨hg2, ha2⟩ := hd r2 hr2
    rw [heq, hg2] at hg1
    cases hg1
    rw [ha1] at ha2
    exact Action.noConfusion ha2
  · intro r hr
    obtain ⟨_, ha⟩ := hi r hr
    rw [ha]
    intro hcon
    exact Action.noConfusion hcon
  · intro r hr
    obtain ⟨_, ha⟩ := hd r hr
    rw [ha]
    intro hcon
    exact Action.noConfusion hcon

/-- C5: after any sequence of classify, mark-as-read, clear (and mode/rule
setting) operations starting from the constructor state, no record is in
both the important and the digested partition, and neither partition retains
a record classified suppress. -/
theorem c5_partition_exclusivity (ops : List Op) :
    partitionsExclusive (applyOps initialManagerState ops) = true :=
  ledgerInv_partitionsExclusive _ (ledgerInv_applyOps ops _ ledgerInv_initial)

end DoNotDisturb
